import Mathlib

/-!
Verification of the weight-handling, histogramming, configuration and
tree-reading logic of the `tact` package (files `tact/rootIO.py` and
`tact/config.py`).

Event weights are modelled as exact rationals (`ℚ`): the Python code works on
IEEE doubles, so `np.isclose` tolerance checks become exact equality here.
Where a zero denominator makes the Python produce IEEE `inf`/`NaN`, the model
reproduces the *observable* outcome (the assertion that fails), documented at
each site.  Fallible Python functions (those that can raise `AssertionError`
or `ValueError`) are modelled as `Except String`, carrying the message of the
exception that fires.
-/

namespace Tact

/-- Model of `rootIO.balance_weights` (rootIO.py lines 85-119).

```
sum1 = np.sum(w1); sum2 = np.sum(w2)
scale = truediv(*sorted([sum1, sum2], reverse=True))  # always scale up
if sum1 < sum2:   w1 = w1 * scale
elif sum1 > sum2: w2 = w2 * scale
assert np.isclose(np.sum(w1), np.sum(w2))
assert np.sum(w1) >= sum1
assert np.sum(w2) >= sum2
return w1, w2
```

`sorted(..., reverse=True)` puts the larger sum first, so
`scale = max / min`.  When exactly one sum is zero the Python division
produces IEEE `inf`, the scaled vector sums to `NaN` (or `inf`), and the
`np.isclose` assertion fails; rational division by zero yields `0` here, the
scaled vector then sums to `0` which differs from the other (positive) sum,
so the same assertion fails with the same message — the observable outcome
(an `AssertionError` on the first assert) coincides.  `np.isclose` is
modelled as exact equality on `ℚ`. -/
def balance_weights (w1 w2 : List ℚ) : Except String (List ℚ × List ℚ) :=
  let sum1 := w1.sum
  let sum2 := w2.sum
  let scale := max sum1 sum2 / min sum1 sum2
  let w1' := if sum1 < sum2 then w1.map (fun x => x * scale) else w1
  let w2' := if sum2 < sum1 then w2.map (fun x => x * scale) else w2
  if w1'.sum = w2'.sum then
    if sum1 ≤ w1'.sum then
      if sum2 ≤ w2'.sum then .ok (w1', w2')
      else .error "assert np.sum(w2) >= sum2"
    else .error "assert np.sum(w1) >= sum1"
  else .error "assert np.isclose(np.sum(w1), np.sum(w2))"

/-- Model of the inner function `reweight` of `rootIO.read_trees`
(rootIO.py lines 204-234).

```
reweighted = np.abs(w)
try:
    reweighted = reweighted * (np.sum(w) / np.sum(reweighted))
except ZeroDivisionError:  # all weights are 0 or df is empty
    pass
assert np.isclose(np.sum(w), np.sum(reweighted)), "Bad weight renormalisation"
assert (reweighted >= 0).all(), "Negative MVA Weights after reweight"
return reweighted
```

The operands are pandas/numpy objects, so a zero denominator never raises
`ZeroDivisionError`: `np.float64(0)/np.float64(0)` is `NaN` (with only a
runtime warning).  For a *nonempty* `w` with `np.sum(np.abs(w)) == 0` the
product is a vector of `NaN`s whose sum is `NaN`, so the first assertion
(`"Bad weight renormalisation"`) fails; the guard below models exactly that.
For an empty `w` the product is the empty vector and both assertions pass. -/
def reweight (w : List ℚ) : Except String (List ℚ) :=
  let absw := w.map (fun x => |x|)
  if absw.sum = 0 ∧ w ≠ [] then .error "Bad weight renormalisation"
  else
    let reweighted := absw.map (fun x => x * (w.sum / absw.sum))
    if w.sum = reweighted.sum then
      if reweighted.all (fun x => decide (0 ≤ x)) then .ok reweighted
      else .error "Negative MVA Weights after reweight"
    else .error "Bad weight renormalisation"

/-! ### Basic list-sum helpers -/

theorem sum_map_mul (l : List ℚ) (c : ℚ) :
    (l.map (fun x => x * c)).sum = l.sum * c := by
  induction l with
  | nil => simp
  | cons a t ih => simp [ih, add_mul]

theorem sum_le_sum_abs (l : List ℚ) : l.sum ≤ (l.map (fun x => |x|)).sum := by
  induction l with
  | nil => simp
  | cons a t ih => simpa using add_le_add (le_abs_self a) ih

theorem neg_sum_le_sum_abs (l : List ℚ) :
    -l.sum ≤ (l.map (fun x => |x|)).sum := by
  induction l with
  | nil => simp
  | cons a t ih =>
    simp only [List.map_cons, List.sum_cons, neg_add]
    exact add_le_add (neg_le_abs a) ih

theorem sum_abs_nonneg (l : List ℚ) : 0 ≤ (l.map (fun x => |x|)).sum := by
  induction l with
  | nil => simp
  | cons a t ih => simpa using add_nonneg (abs_nonneg a) ih

theorem sum_abs_eq_zero (l : List ℚ) (h : (l.map (fun x => |x|)).sum = 0) :
    ∀ x ∈ l, x = 0 := by
  induction l with
  | nil => simp
  | cons a t ih =>
    simp only [List.map_cons, List.sum_cons] at h
    have ha : |a| = 0 := by
      have h1 := abs_nonneg a
      have h2 := sum_abs_nonneg t
      linarith
    intro x hx
    rcases List.mem_cons.mp hx with hx | hx
    · subst hx; exact abs_eq_zero.mp ha
    · exact ih (by linarith) x hx

/-! ### Case analysis of `balance_weights` -/

theorem bw_eq_case (w1 w2 : List ℚ) (h : w1.sum = w2.sum) :
    balance_weights w1 w2 = .ok (w1, w2) := by
  simp [balance_weights, h, le_refl]

theorem bw_lt_case (w1 w2 : List ℚ) (h : w1.sum < w2.sum) (h0 : 0 < w1.sum) :
    balance_weights w1 w2 =
      .ok (w1.map (fun x => x * (w2.sum / w1.sum)), w2) := by
  have hmax : max w1.sum w2.sum = w2.sum := max_eq_right h.le
  have hmin : min w1.sum w2.sum = w1.sum := min_eq_left h.le
  have hs : (w1.map (fun x => x * (w2.sum / w1.sum))).sum = w2.sum := by
    rw [sum_map_mul, mul_div_cancel₀ _ (ne_of_gt h0)]
  simp [balance_weights, hmax, hmin, h, not_lt_of_gt h, hs, h.le, le_refl]

theorem bw_gt_case (w1 w2 : List ℚ) (h : w2.sum < w1.sum) (h0 : 0 < w2.sum) :
    balance_weights w1 w2 =
      .ok (w1, w2.map (fun x => x * (w1.sum / w2.sum))) := by
  have hmax : max w1.sum w2.sum = w1.sum := max_eq_left h.le
  have hmin : min w1.sum w2.sum = w2.sum := min_eq_right h.le
  have hs : (w2.map (fun x => x * (w1.sum / w2.sum))).sum = w1.sum := by
    rw [sum_map_mul, mul_div_cancel₀ _ (ne_of_gt h0)]
  simp [balance_weights, hmax, hmin, h, not_lt_of_gt h, hs, h.le, le_refl]

theorem bw_zero_lt_case (w1 w2 : List ℚ) (h1 : w1.sum = 0) (h2 : 0 < w2.sum) :
    balance_weights w1 w2 = .error "assert np.isclose(np.sum(w1), np.sum(w2))" := by
  have hlt : w1.sum < w2.sum := by rw [h1]; exact h2
  have hne : (w1.map (fun x => x * (max w1.sum w2.sum / min w1.sum w2.sum))).sum ≠ w2.sum := by
    rw [sum_map_mul, h1, zero_mul]
    exact (ne_of_lt h2)
  simp [balance_weights, hlt, not_lt_of_gt hlt, hne]

theorem bw_lt_zero_case (w1 w2 : List ℚ) (h1 : 0 < w1.sum) (h2 : w2.sum = 0) :
    balance_weights w1 w2 = .error "assert np.isclose(np.sum(w1), np.sum(w2))" := by
  have hlt : w2.sum < w1.sum := by rw [h2]; exact h1
  have hne : w1.sum ≠ (w2.map (fun x => x * (max w1.sum w2.sum / min w1.sum w2.sum))).sum := by
    rw [sum_map_mul, h2, zero_mul]
    exact (ne_of_gt h1)
  simp [balance_weights, hlt, not_lt_of_gt hlt, hne]

/-! ### Case analysis of `reweight` -/

theorem rw_success (w : List ℚ) (hA : (w.map (fun x => |x|)).sum ≠ 0)
    (hS : 0 ≤ w.sum) :
    ∃ v, reweight w = .ok v ∧ v.sum = w.sum ∧ ∀ x ∈ v, 0 ≤ x := by
  have hsum : ((w.map (fun x => |x|)).map
      (fun x => x * (w.sum / (w.map (fun x => |x|)).sum))).sum = w.sum := by
    rw [sum_map_mul, mul_div_cancel₀ _ hA]
  have hmem : ∀ x ∈ (w.map (fun x => |x|)).map
      (fun x => x * (w.sum / (w.map (fun x => |x|)).sum)), 0 ≤ x := by
    intro x hx
    rcases List.mem_map.mp hx with ⟨y, hy, rfl⟩
    rcases List.mem_map.mp hy with ⟨z, _, rfl⟩
    exact mul_nonneg (abs_nonneg z) (div_nonneg hS (sum_abs_nonneg w))
  refine ⟨_, ?_, hsum, hmem⟩
  simp only [reweight]
  rw [if_neg (fun h => hA h.1), if_pos hsum.symm,
    if_pos (List.all_eq_true.mpr (fun x hx => decide_eq_true (hmem x hx)))]

theorem rw_empty : reweight [] = .ok [] := by
  simp [reweight]

theorem rw_allzero (w : List ℚ) (hw : w ≠ []) (h0 : ∀ x ∈ w, x = 0) :
    reweight w = .error "Bad weight renormalisation" := by
  have hA : (w.map (fun x => |x|)).sum = 0 := by
    apply List.sum_eq_zero
    intro y hy
    rcases List.mem_map.mp hy with ⟨z, hz, rfl⟩
    rw [h0 z hz, abs_zero]
  simp only [reweight]
  rw [if_pos ⟨hA, hw⟩]

theorem rw_neg (w : List ℚ) (hS : w.sum < 0) :
    reweight w = .error "Negative MVA Weights after reweight" := by
  have hA : 0 < (w.map (fun x => |x|)).sum :=
    lt_of_lt_of_le (neg_pos.mpr hS) (neg_sum_le_sum_abs w)
  have hsum : ((w.map (fun x => |x|)).map
      (fun x => x * (w.sum / (w.map (fun x => |x|)).sum))).sum = w.sum := by
    rw [sum_map_mul, mul_div_cancel₀ _ (ne_of_gt hA)]
  -- some element of `w` is negative, so its reweighted image is negative
  have hex : ∃ x ∈ w, x < 0 := by
    by_contra hc
    push_neg at hc
    exact absurd (List.sum_nonneg hc) (not_le.mpr hS)
  rcases hex with ⟨z, hz, hzneg⟩
  have hbad : (|z| * (w.sum / (w.map (fun x => |x|)).sum)) < 0 :=
    mul_neg_of_pos_of_neg (abs_pos.mpr (ne_of_lt hzneg))
      (div_neg_of_neg_of_pos hS hA)
  have hmem : (|z| * (w.sum / (w.map (fun x => |x|)).sum)) ∈
      (w.map (fun x => |x|)).map
        (fun x => x * (w.sum / (w.map (fun x => |x|)).sum)) :=
    List.mem_map.mpr ⟨|z|, List.mem_map.mpr ⟨z, hz, rfl⟩, rfl⟩
  have hall : ((w.map (fun x => |x|)).map
      (fun x => x * (w.sum / (w.map (fun x => |x|)).sum))).all
        (fun x => decide (0 ≤ x)) = false := by
    apply List.all_eq_false.mpr
    exact ⟨_, hmem, by simpa using not_le.mpr hbad⟩
  simp only [reweight]
  rw [if_neg (fun h => (ne_of_gt hA) h.1), if_pos hsum.symm, if_neg]
  rw [hall]
  simp

/-! ### Claim C2 about `reweight` -/

/-- C2 (amended): the "reweight" treatment returns a vector that is
elementwise non-negative and preserves the original signed sum precisely when
the original sum is positive, the vector is empty, or the sum is zero with at
least one nonzero element.  The claim's "fails when the sum ≤ 0" is wrong at
sum exactly zero with cancelling entries (see `c2_counterexample`): there the
scale factor is `0` and a zero vector is returned successfully.  It does fail
for every negative sum (the non-negativity assertion) and also for a nonempty
all-zero vector, where numpy's `0/0 = NaN` — never the intended
`ZeroDivisionError` — poisons the weights and the normalisation assertion
fails. -/
theorem c2_reweight_characterisation (w : List ℚ) :
    (∃ v, reweight w = .ok v ∧ v.sum = w.sum ∧ ∀ x ∈ v, 0 ≤ x) ↔
      (0 < w.sum ∨ w = [] ∨ (w.sum = 0 ∧ ∃ x ∈ w, x ≠ 0)) := by
  constructor
  · rintro ⟨v, hok, -, -⟩
    rcases lt_trichotomy w.sum 0 with hS | hS | hS
    · rw [rw_neg w hS] at hok
      exact absurd hok (by simp)
    · by_cases hw : w = []
      · exact Or.inr (Or.inl hw)
      · by_cases hz : ∀ x ∈ w, x = 0
        · rw [rw_allzero w hw hz] at hok
          exact absurd hok (by simp)
        · push_neg at hz
          exact Or.inr (Or.inr ⟨hS, hz⟩)
    · exact Or.inl hS
  · rintro (hS | hw | ⟨hS, z, hz, hzne⟩)
    · have hA : (w.map (fun x => |x|)).sum ≠ 0 :=
        ne_of_gt (lt_of_lt_of_le hS (sum_le_sum_abs w))
      exact rw_success w hA hS.le
    · subst hw
      exact ⟨[], rw_empty, by simp, by simp⟩
    · have hA : (w.map (fun x => |x|)).sum ≠ 0 := by
        intro hc
        exact hzne (sum_abs_eq_zero w hc z hz)
      exact rw_success w hA hS.ge

/-- C2 counterexample: `w = [1, -1]` has sum `0 ≤ 0`, yet `reweight`
succeeds (returning an all-zero vector) instead of failing as the claim
requires. -/
theorem c2_counterexample :
    [(1 : ℚ), -1].sum ≤ 0 ∧ ∃ v, reweight [(1 : ℚ), -1] = .ok v := by
  refine ⟨by norm_num, ?_⟩
  rcases rw_success [(1 : ℚ), -1] (by norm_num) (by norm_num) with ⟨v, hok, -, -⟩
  exact ⟨v, hok⟩

/-- Witness for `c2_reweight_characterisation` at `w = [2, -1]`. -/
theorem c2_witness :
    ∃ v, reweight [(2 : ℚ), -1] = .ok v ∧ v.sum = [(2 : ℚ), -1].sum ∧
      ∀ x ∈ v, 0 ≤ x :=
  (c2_reweight_characterisation [2, -1]).mpr (Or.inl (by norm_num))

/-! ### Claims C1, C5, C6 about `balance_weights` -/

/-- C1 (amended): for all weight vectors `w1, w2` whose sums are non-negative
and not exactly one of them zero (both positive, both zero, or equal),
`balance_weights` returns two vectors whose sums are exactly equal (the
`np.isclose` tolerance is exact equality in this rational model), and each
returned vector's sum is ≥ the corresponding input vector's sum.  When exactly
one sum is zero the function instead fails its first assertion (see
`c1_counterexample`). -/
theorem c1_balance_weights_post (w1 w2 : List ℚ)
    (h1 : 0 ≤ w1.sum) (h2 : 0 ≤ w2.sum) (hz : w1.sum = 0 ↔ w2.sum = 0) :
    ∃ v1 v2, balance_weights w1 w2 = .ok (v1, v2) ∧
      v1.sum = v2.sum ∧ w1.sum ≤ v1.sum ∧ w2.sum ≤ v2.sum := by
  rcases lt_trichotomy w1.sum w2.sum with hlt | heq | hgt
  · have h0 : 0 < w1.sum := by
      by_contra hc
      push_neg at hc
      have hs1 : w1.sum = 0 := le_antisymm hc h1
      have hs2 : w2.sum = 0 := hz.mp hs1
      rw [hs1, hs2] at hlt
      exact lt_irrefl 0 hlt
    refine ⟨_, _, bw_lt_case w1 w2 hlt h0, ?_, ?_, le_refl _⟩
    · rw [sum_map_mul, mul_div_cancel₀ _ (ne_of_gt h0)]
    · rw [sum_map_mul, mul_div_cancel₀ _ (ne_of_gt h0)]
      exact hlt.le
  · exact ⟨w1, w2, bw_eq_case w1 w2 heq, heq, le_refl _, le_refl _⟩
  · have h0 : 0 < w2.sum := by
      by_contra hc
      push_neg at hc
      have hs2 : w2.sum = 0 := le_antisymm hc h2
      have hs1 : w1.sum = 0 := hz.mpr hs2
      rw [hs1, hs2] at hgt
      exact lt_irrefl 0 hgt
    refine ⟨_, _, bw_gt_case w1 w2 hgt h0, ?_, le_refl _, ?_⟩
    · rw [sum_map_mul, mul_div_cancel₀ _ (ne_of_gt h0)]
    · rw [sum_map_mul, mul_div_cancel₀ _ (ne_of_gt h0)]
      exact hgt.le

/-- C1 counterexample: at `w1 = [0]`, `w2 = [1]` both sums are non-negative,
yet `balance_weights` does not return balanced vectors: the division by the
zero minimum makes the first assertion fail (an `AssertionError` in Python;
`Except.error` here), refuting the claim as stated. -/
theorem c1_counterexample :
    0 ≤ [(0 : ℚ)].sum ∧ 0 ≤ [(1 : ℚ)].sum ∧
      balance_weights [0] [1] =
        .error "assert np.isclose(np.sum(w1), np.sum(w2))" :=
  ⟨by norm_num, by norm_num, bw_zero_lt_case [0] [1] (by norm_num) (by norm_num)⟩

/-- Witness for `c1_balance_weights_post` at `w1 = [1]`, `w2 = [2]`. -/
theorem c1_witness :
    ∃ v1 v2, balance_weights [(1 : ℚ)] [(2 : ℚ)] = .ok (v1, v2) ∧
      v1.sum = v2.sum ∧ [(1 : ℚ)].sum ≤ v1.sum ∧ [(2 : ℚ)].sum ≤ v2.sum :=
  c1_balance_weights_post [1] [2] (by norm_num) (by norm_num) (by norm_num)

/-- C5 (amended): when the two sums are unequal and the smaller one is
positive, `balance_weights` multiplies exactly the smaller-summing vector by
`max(sum)/min(sum)` and returns the larger-summing vector unchanged element
for element; when the sums are equal both vectors are returned unchanged.
When exactly one sum is zero (so the sums are unequal but the smaller is not
positive) the function fails an assertion instead of returning
(`c5_counterexample`), which the last two conjuncts record. -/
theorem c5_balance_weights_frame (w1 w2 : List ℚ) :
    (w1.sum < w2.sum → 0 < w1.sum →
      balance_weights w1 w2 =
        .ok (w1.map (fun x => x * (max w1.sum w2.sum / min w1.sum w2.sum)), w2)) ∧
    (w2.sum < w1.sum → 0 < w2.sum →
      balance_weights w1 w2 =
        .ok (w1, w2.map (fun x => x * (max w1.sum w2.sum / min w1.sum w2.sum)))) ∧
    (w1.sum = w2.sum → balance_weights w1 w2 = .ok (w1, w2)) ∧
    (w1.sum = 0 → 0 < w2.sum → ∃ e, balance_weights w1 w2 = .error e) ∧
    (w2.sum = 0 → 0 < w1.sum → ∃ e, balance_weights w1 w2 = .error e) := by
  refine ⟨?_, ?_, bw_eq_case w1 w2, ?_, ?_⟩
  · intro hlt h0
    rw [max_eq_right hlt.le, min_eq_left hlt.le]
    exact bw_lt_case w1 w2 hlt h0
  · intro hgt h0
    rw [max_eq_left hgt.le, min_eq_right hgt.le]
    exact bw_gt_case w1 w2 hgt h0
  · intro h1 h2
    exact ⟨_, bw_zero_lt_case w1 w2 h1 h2⟩
  · intro h2 h1
    exact ⟨_, bw_lt_zero_case w1 w2 h1 h2⟩

/-- C5 counterexample: `w1 = [0]`, `w2 = [1]` have unequal non-negative sums,
but instead of scaling the smaller vector and returning the larger one
unchanged, `balance_weights` raises an assertion failure. -/
theorem c5_counterexample :
    [(0 : ℚ)].sum ≠ [(1 : ℚ)].sum ∧ 0 ≤ [(0 : ℚ)].sum ∧ 0 ≤ [(1 : ℚ)].sum ∧
      balance_weights [0] [1] =
        .error "assert np.isclose(np.sum(w1), np.sum(w2))" :=
  ⟨by norm_num, by norm_num, by norm_num,
    bw_zero_lt_case [0] [1] (by norm_num) (by norm_num)⟩

/-- Witness for `c5_balance_weights_frame` at `w1 = [1]`, `w2 = [3]`. -/
theorem c5_witness :
    balance_weights [(1 : ℚ)] [(3 : ℚ)] =
      .ok ([(1 : ℚ)].map
            (fun x => x * (max [(1 : ℚ)].sum [(3 : ℚ)].sum /
                            min [(1 : ℚ)].sum [(3 : ℚ)].sum)),
          [(3 : ℚ)]) :=
  (c5_balance_weights_frame [1] [3]).1 (by norm_num) (by norm_num)

/-- C6: when both input weight vectors sum to zero, `balance_weights` does
not fault: neither rescaling branch is taken, all three assertions hold, and
both vectors are returned unchanged (sums still zero and equal). -/
theorem c6_balance_weights_zero (w1 w2 : List ℚ)
    (h1 : w1.sum = 0) (h2 : w2.sum = 0) :
    balance_weights w1 w2 = .ok (w1, w2) :=
  bw_eq_case w1 w2 (h1.trans h2.symm)

/-- Witness for `c6_balance_weights_zero` at `w1 = [1, -1]`, `w2 = [0]`. -/
theorem c6_witness :
    balance_weights [(1 : ℚ), -1] [(0 : ℚ)] = .ok ([(1 : ℚ), -1], [(0 : ℚ)]) :=
  c6_balance_weights_zero [1, -1] [0] (by norm_num) (by norm_num)

/-! ### Claim C3: the TH1 name transformation -/

/-- `re.sub` with a pattern anchored at the start of the string
(`re.sub("^pat", repl, s)`): if `pat` is a prefix of `s` it is replaced by
`repl` (at most one match is possible), otherwise `s` is unchanged. -/
def reSubStart (pat repl s : String) : String :=
  if pat.toList.isPrefixOf s.toList then
    String.mk (repl.toList ++ s.toList.drop pat.toList.length)
  else s

/-- `re.sub` with a pattern anchored at the end of the string
(`re.sub("pat$", repl, s)`): if `pat` is a suffix of `s` it is replaced by
`repl` (at most one match is possible), otherwise `s` is unchanged. -/
def reSubEnd (pat repl s : String) : String :=
  if pat.toList.isSuffixOf s.toList then
    String.mk (s.toList.take (s.toList.length - pat.toList.length) ++ repl.toList)
  else s

/-- Model of `rootIO._format_TH1_name` (rootIO.py lines 293-330).

```
name = re.sub(r"^Ttree", "MVA_{}_".format(channel), name)
if combine:
    name = re.sub(r"__plus$", "Up", name)
    name = re.sub(r"__minus$", "Down", name)
return name
```
-/
def format_TH1_name (name : String) (combine : Bool := true)
    (channel : String := "all") : String :=
  let name := reSubStart "Ttree" ("MVA_" ++ channel ++ "_") name
  if combine then
    let name := reSubEnd "__plus" "Up" name
    reSubEnd "__minus" "Down" name
  else name

/-- C3 (amended): on input `"Ttree__ProcA__plus"` with channel `"ee"`, only
the bare prefix `Ttree` is replaced by `MVA_ee_`, so the double underscore of
the input survives and the result with combine-compatible naming enabled is
`"MVA_ee___ProcAUp"` (three underscores), not `"MVA_ee_ProcAUp"`; with
combine-compatible naming disabled the `__plus` suffix is left unchanged:
`"MVA_ee___ProcA__plus"`. -/
theorem c3_format_TH1_name :
    format_TH1_name "Ttree__ProcA__plus" true "ee" = "MVA_ee___ProcAUp" ∧
      format_TH1_name "Ttree__ProcA__plus" false "ee" = "MVA_ee___ProcA__plus" := by
  constructor <;> rfl

/-- C3 counterexample: the transformed name differs from the claim's expected
`"MVA_ee_ProcAUp"` (the code produces three underscores after the channel). -/
theorem c3_counterexample :
    format_TH1_name "Ttree__ProcA__plus" true "ee" ≠ "MVA_ee_ProcAUp" := by
  decide

/-! ### Claim C4: `col_to_TH1` histogram semantics

`np.histogram(x, bins=n, range=(lo, hi), weights=w)` with an integer bin
count uses `n` uniform bins over `[lo, hi]`: bin `i` is the half-open
interval `[lo + i*(hi-lo)/n, lo + (i+1)*(hi-lo)/n)`, except that the last
bin also includes the right edge `hi`; samples outside `[lo, hi]` are
ignored.  `binIdx` computes the bin index numpy assigns to a value (exact
rational arithmetic). -/

/-- The `i`-th edge of `n` uniform bins over `[lo, hi]`
(`np.linspace(lo, hi, n+1)`). -/
def binEdge (lo hi : ℚ) (bins : ℕ) (i : ℕ) : ℚ := lo + i * (hi - lo) / bins

/-- The bin index `np.histogram` assigns to value `v` (`none` = out of
range). -/
def binIdx (lo hi : ℚ) (bins : ℕ) (v : ℚ) : Option ℕ :=
  if v < lo ∨ hi < v then none
  else if hi ≤ v then some (bins - 1)
  else some (Int.toNat ⌊(v - lo) * bins / (hi - lo)⌋)

/-- Per-bin weighted contents of `np.histogram(x, bins, range=(lo, hi),
weights=w)`: entry `i` is the sum of the weights of the samples assigned to
bin `i`. -/
def npHistogram (x w : List ℚ) (bins : ℕ) (lo hi : ℚ) : List ℚ :=
  (List.range bins).map (fun i =>
    (((x.zip w).filter (fun p => decide (binIdx lo hi bins p.1 = some i))).map
      (fun p => p.2)).sum)

/-- The data of a ROOT `TH1D` as produced by `col_to_TH1`: per-bin contents
and per-bin summed squared weights (ROOT's `Sumw2` array; the bin error
reported by ROOT is its square root). -/
structure TH1 where
  name : String
  title : String
  binEdges : List ℚ
  contents : List ℚ
  sumw2 : List ℚ

/-- Model of `rootIO.col_to_TH1` (rootIO.py lines 333-374).

```
contents = np.histogram(x, bins=bins, range=range, weights=w)[0]
errors, bin_edges = np.histogram(x, bins=bins, range=range, weights=np.power(w, 2))
errors = np.sqrt(errors)
h = ROOT.TH1D(name, title, len(bin_edges) - 1, bin_edges)
h.Sumw2()
array2hist(contents, h, errors=errors)
```

The histogram stores the pre-square-root error array (`sumw2`); the bin
error is `Real.sqrt` of it, as stated in `c4_col_to_TH1`. -/
def col_to_TH1 (x w : List ℚ) (name : String := "MVA") (title : String := "MVA")
    (bins : ℕ := 20) (lo : ℚ := 0) (hi : ℚ := 1) : TH1 :=
  { name := name
    title := title
    binEdges := (List.range (bins + 1)).map (fun i => binEdge lo hi bins i)
    contents := npHistogram x w bins lo hi
    sumw2 := npHistogram x (w.map (fun t => t ^ 2)) bins lo hi }

/-- Membership of a value in bin `i`'s range: left-closed, right-open,
except that the last bin also contains the right edge `hi`. -/
def inBin (lo hi : ℚ) (bins i : ℕ) (v : ℚ) : Prop :=
  binEdge lo hi bins i ≤ v ∧
    (v < binEdge lo hi bins (i + 1) ∨ (i = bins - 1 ∧ v = hi))

instance (lo hi : ℚ) (bins i : ℕ) (v : ℚ) : Decidable (inBin lo hi bins i v) := by
  unfold inBin
  infer_instance

theorem binEdge_zero (lo hi : ℚ) (bins : ℕ) : binEdge lo hi bins 0 = lo := by
  simp [binEdge]

theorem binEdge_last (lo hi : ℚ) (bins : ℕ) (hb : (bins : ℚ) ≠ 0) :
    binEdge lo hi bins bins = hi := by
  unfold binEdge
  rw [mul_div_cancel_left₀ _ hb]
  ring

theorem binEdge_mono (lo hi : ℚ) (bins : ℕ) (hr : lo ≤ hi) (hb : 0 < bins)
    {j k : ℕ} (h : j ≤ k) :
    binEdge lo hi bins j ≤ binEdge lo hi bins k := by
  unfold binEdge
  have hbq : (0 : ℚ) < bins := by exact_mod_cast hb
  apply add_le_add_left
  apply (div_le_div_iff_of_pos_right hbq).mpr
  exact mul_le_mul_of_nonneg_right (by exact_mod_cast h) (sub_nonneg.mpr hr)

/-- The bin index assigned by `np.histogram` matches interval membership in
the uniform binning. -/
theorem binIdx_eq_some_iff (lo hi : ℚ) (bins : ℕ) (hb : 0 < bins)
    (hr : lo < hi) (i : ℕ) (hib : i < bins) (v : ℚ) :
    binIdx lo hi bins v = some i ↔ inBin lo hi bins i v := by
  have hd : 0 < hi - lo := sub_pos.mpr hr
  have hbq : (0 : ℚ) < bins := by exact_mod_cast hb
  have hbne : (bins : ℚ) ≠ 0 := ne_of_gt hbq
  by_cases hvlo : v < lo
  · have hedge : lo ≤ binEdge lo hi bins i := by
      have h := binEdge_mono lo hi bins hr.le hb (Nat.zero_le i)
      rwa [binEdge_zero] at h
    simp only [binIdx, if_pos (Or.inl hvlo)]
    constructor
    · intro h
      exact absurd h (by simp)
    · rintro ⟨h1, -⟩
      exact absurd (hedge.trans h1) (not_le.mpr hvlo)
  · by_cases hvhi : hi < v
    · have hedge : binEdge lo hi bins (i + 1) ≤ hi := by
        have h := binEdge_mono lo hi bins hr.le hb (show i + 1 ≤ bins from hib)
        rwa [binEdge_last lo hi bins hbne] at h
      simp only [binIdx, if_pos (Or.inr hvhi)]
      constructor
      · intro h
        exact absurd h (by simp)
      · rintro ⟨-, h2 | ⟨-, h2⟩⟩
        · exact absurd (h2.trans_le hedge) (not_lt.mpr hvhi.le)
        · rw [h2] at hvhi
          exact absurd hvhi (lt_irrefl hi)
    · have hvlo' : lo ≤ v := not_lt.mp hvlo
      by_cases hveq : hi ≤ v
      · have hv : v = hi := le_antisymm (not_lt.mp hvhi) hveq
        have hedge : binEdge lo hi bins (i + 1) ≤ hi := by
          have h := binEdge_mono lo hi bins hr.le hb (show i + 1 ≤ bins from hib)
          rwa [binEdge_last lo hi bins hbne] at h
        have hedgei : binEdge lo hi bins i ≤ hi := by
          have h := binEdge_mono lo hi bins hr.le hb (le_of_lt hib)
          rwa [binEdge_last lo hi bins hbne] at h
        simp only [binIdx, if_neg (not_or.mpr ⟨hvlo, hvhi⟩), if_pos hveq]
        constructor
        · intro h
          have hbi : bins - 1 = i := Option.some_inj.mp h
          refine ⟨?_, Or.inr ⟨hbi.symm, hv⟩⟩
          rw [hv]
          exact hedgei
        · rintro ⟨-, h2 | ⟨h2, -⟩⟩
          · have h3 := h2.trans_le hedge
            rw [hv] at h3
            exact absurd h3 (lt_irrefl hi)
          · rw [h2]
      · have hvlt : v < hi := not_le.mp hveq
        simp only [binIdx, if_neg (not_or.mpr ⟨hvlo, hvhi⟩), if_neg hveq]
        have ht0 : 0 ≤ (v - lo) * (bins : ℚ) / (hi - lo) :=
          div_nonneg (mul_nonneg (sub_nonneg.mpr hvlo') hbq.le) hd.le
        constructor
        · intro h
          have h' : Int.toNat ⌊(v - lo) * (bins : ℚ) / (hi - lo)⌋ = i :=
            Option.some_inj.mp h
          have hfl : ⌊(v - lo) * (bins : ℚ) / (hi - lo)⌋ = (i : ℤ) := by
            rw [← h']
            exact (Int.toNat_of_nonneg (Int.floor_nonneg.mpr ht0)).symm
          obtain ⟨hl, hu⟩ := Int.floor_eq_iff.mp hfl
          push_cast at hl hu
          rw [le_div_iff₀ hd] at hl
          rw [div_lt_iff₀ hd] at hu
          have hl' : (i : ℚ) * (hi - lo) / bins ≤ v - lo := (div_le_iff₀ hbq).mpr hl
          have hu' : v - lo < ((i : ℚ) + 1) * (hi - lo) / bins := (lt_div_iff₀ hbq).mpr hu
          refine ⟨?_, Or.inl ?_⟩
          · unfold binEdge
            linarith
          · unfold binEdge
            push_cast
            linarith
        · rintro ⟨h1, h2 | ⟨-, h2⟩⟩
          · unfold binEdge at h1 h2
            push_cast at h2
            have hl : (i : ℚ) * (hi - lo) ≤ (v - lo) * bins :=
              (div_le_iff₀ hbq).mp (by linarith)
            have hu : (v - lo) * (bins : ℚ) < ((i : ℚ) + 1) * (hi - lo) :=
              (lt_div_iff₀ hbq).mp (by linarith)
            have hfl : ⌊(v - lo) * (bins : ℚ) / (hi - lo)⌋ = (i : ℤ) := by
              rw [Int.floor_eq_iff]
              constructor
              · push_cast
                rw [le_div_iff₀ hd]
                exact hl
              · push_cast
                rw [div_lt_iff₀ hd]
                exact hu
            rw [hfl]
            simp
          · exact absurd h2 (ne_of_lt hvlt)

theorem npHistogram_getD (x w : List ℚ) (bins : ℕ) (lo hi : ℚ) (i : ℕ)
    (h : i < bins) :
    (npHistogram x w bins lo hi).getD i 0 =
      (((x.zip w).filter (fun p => decide (binIdx lo hi bins p.1 = some i))).map
        (fun p => p.2)).sum := by
  unfold npHistogram
  rw [List.getD_eq_getElem?_getD, List.getElem?_map, List.getElem?_range h]
  rfl

/-- Sums over a zip with mapped weights can be rewritten as sums of the
mapped weights over the original zip, when the filter looks only at the
sample value. -/
theorem zip_map_filter_sum (x w : List ℚ) (p : ℚ → Bool) (f : ℚ → ℚ) :
    (((x.zip (w.map f)).filter (fun q => p q.1)).map (fun q => q.2)).sum =
      (((x.zip w).filter (fun q => p q.1)).map (fun q => f q.2)).sum := by
  rw [List.zip_map_right, List.filter_map, List.map_map]
  have hp : ((fun q : ℚ × ℚ => p q.1) ∘ Prod.map id f) = fun q : ℚ × ℚ => p q.1 := by
    funext q
    rfl
  rw [hp]
  congr 1

theorem binEdges_getD (lo hi : ℚ) (bins : ℕ) (i : ℕ) (h : i ≤ bins) :
    (((List.range (bins + 1)).map (fun j => binEdge lo hi bins j)).getD i 0) =
      binEdge lo hi bins i := by
  rw [List.getD_eq_getElem?_getD, List.getElem?_map,
    List.getElem?_range (Nat.lt_succ_of_le h)]
  rfl

/-- C4: for every input column `x` and weight vector `w` (of equal length,
as numpy requires), over a positive bin count and nonempty range, the
histogram built by `col_to_TH1` has in each bin a content equal to the sum
of the weights of the inputs falling in that bin's range, and a statistical
error (the square root of the stored `Sumw2` entry) equal to the square root
of the sum of the squared weights of those inputs; the bin edges are uniform
across the configured range, starting at `lo` and ending at `hi`. -/
theorem c4_col_to_TH1 (x w : List ℚ) (name title : String) (bins : ℕ)
    (lo hi : ℚ) (hb : 0 < bins) (hr : lo < hi) (_hlen : x.length = w.length)
    (h : TH1) (hh : h = col_to_TH1 x w name title bins lo hi) :
    (∀ i, i < bins → h.contents.getD i 0 =
        (((x.zip w).filter (fun p => decide (inBin lo hi bins i p.1))).map
          (fun p => p.2)).sum) ∧
    (∀ i, i < bins → Real.sqrt (h.sumw2.getD i 0) =
        Real.sqrt ((((((x.zip w).filter (fun p => decide (inBin lo hi bins i p.1))).map
          (fun p => p.2 ^ 2)).sum : ℚ) : ℝ))) ∧
    (∀ i, i < bins →
      h.binEdges.getD (i + 1) 0 - h.binEdges.getD i 0 = (hi - lo) / bins) ∧
    h.binEdges.getD 0 0 = lo ∧ h.binEdges.getD bins 0 = hi := by
  subst hh
  have hfilter : ∀ (i : ℕ), i < bins → ∀ (l : List (ℚ × ℚ)),
      l.filter (fun p => decide (binIdx lo hi bins p.1 = some i)) =
        l.filter (fun p => decide (inBin lo hi bins i p.1)) := by
    intro i hi2 l
    apply List.filter_congr
    intro p _
    rw [decide_eq_decide]
    exact binIdx_eq_some_iff lo hi bins hb hr i hi2 p.1
  refine ⟨?_, ?_, ?_, ?_, ?_⟩
  · intro i hi2
    show (npHistogram x w bins lo hi).getD i 0 = _
    rw [npHistogram_getD x w bins lo hi i hi2, hfilter i hi2]
  · intro i hi2
    show Real.sqrt ((npHistogram x (w.map (fun t => t ^ 2)) bins lo hi).getD i 0) = _
    rw [npHistogram_getD _ _ bins lo hi i hi2, hfilter i hi2,
      zip_map_filter_sum x w (fun v => decide (inBin lo hi bins i v))
        (fun t => t ^ 2)]
  · intro i hi2
    show (((List.range (bins + 1)).map (fun j => binEdge lo hi bins j)).getD (i + 1) 0) -
        (((List.range (bins + 1)).map (fun j => binEdge lo hi bins j)).getD i 0) = _
    rw [binEdges_getD lo hi bins (i + 1) hi2, binEdges_getD lo hi bins i hi2.le]
    unfold binEdge
    rw [add_sub_add_left_eq_sub, div_sub_div_same]
    congr 1
    push_cast
    ring
  · show (((List.range (bins + 1)).map (fun j => binEdge lo hi bins j)).getD 0 0) = lo
    rw [binEdges_getD lo hi bins 0 (Nat.zero_le bins), binEdge_zero]
  · show (((List.range (bins + 1)).map (fun j => binEdge lo hi bins j)).getD bins 0) = hi
    rw [binEdges_getD lo hi bins bins (le_refl bins),
      binEdge_last lo hi bins (by exact_mod_cast hb.ne')]

/-- Witness for `c4_col_to_TH1`: a two-bin histogram over `[0, 1]` of the
samples `1/4, 3/4` with weights `1, 2`. -/
theorem c4_witness :
    (col_to_TH1 [(1 : ℚ)/4, 3/4] [(1 : ℚ), 2] "MVA" "MVA" 2 0 1).contents.getD 0 0 =
      ((([(1 : ℚ)/4, 3/4].zip [(1 : ℚ), 2]).filter
          (fun p => decide (inBin 0 1 2 0 p.1))).map (fun p => p.2)).sum :=
  (c4_col_to_TH1 [(1 : ℚ)/4, 3/4] [(1 : ℚ), 2] "MVA" "MVA" 2 0 1
    (by norm_num) (by norm_num) (by simp)
    (col_to_TH1 [(1 : ℚ)/4, 3/4] [(1 : ℚ), 2] "MVA" "MVA" 2 0 1) rfl).1 0
    (by norm_num)

/-! ### Claim C7: unrecognized configuration enum values -/

/-- The negative-weight-treatment dispatch of `rootIO.read_trees`
(rootIO.py lines 255-263), applied to one process's weight column:

```
if negative_weight_treatment == "reweight":    df[col_w] = reweight(df[branch_w])
elif negative_weight_treatment == "abs":       df[col_w] = np.abs(df[branch_w])
elif negative_weight_treatment == "passthrough": df[col_w] = df[branch_w]
else: raise ValueError("Bad value for option negative_weight_treatment:", negative_weight_treatment)
```

The `ValueError` message is modelled as the concatenation of its two
arguments (it names the option and the offending value). -/
def applyNegativeWeightTreatment (negative_weight_treatment : String)
    (w : List ℚ) : Except String (List ℚ) :=
  if negative_weight_treatment = "reweight" then reweight w
  else if negative_weight_treatment = "abs" then .ok (w.map (fun x => |x|))
  else if negative_weight_treatment = "passthrough" then .ok w
  else .error ("Bad value for option negative_weight_treatment: " ++
    negative_weight_treatment)

/-- The pseudo-data dispatch of `rootIO.write_root` (rootIO.py lines
503-508); `true` = Poisson pseudo-data, `false` = empty histogram:

```
if data == "poisson": h = poisson_pseudodata(...)
elif data == "empty": h = ROOT.TH1D()
else: raise ValueError("Unrecogised value for option 'data': ", data)
```
-/
def selectDataMode (data : String) : Except String Bool :=
  if data = "poisson" then .ok true
  else if data = "empty" then .ok false
  else .error ("Unrecogised value for option data: " ++ data)

/-- C7: any `negative_weight_treatment` other than `passthrough`/`abs`/
`reweight` makes the tree reader fail with a `ValueError` naming the option
and its value, and any pseudo-data option other than `empty`/`poisson` makes
the response writer fail likewise; recognized values never produce that
error (the only failures possible for recognized values are `reweight`'s
internal assertions). -/
theorem c7_bad_enum_values (mode data : String) (w : List ℚ) :
    (mode ≠ "passthrough" → mode ≠ "abs" → mode ≠ "reweight" →
      applyNegativeWeightTreatment mode w =
        .error ("Bad value for option negative_weight_treatment: " ++ mode)) ∧
    (data ≠ "empty" → data ≠ "poisson" →
      selectDataMode data =
        .error ("Unrecogised value for option data: " ++ data)) ∧
    ((mode = "passthrough" ∨ mode = "abs" ∨ mode = "reweight") →
      ∀ e, applyNegativeWeightTreatment mode w = .error e →
        e = "Bad weight renormalisation" ∨
          e = "Negative MVA Weights after reweight") ∧
    ((data = "empty" ∨ data = "poisson") → ∃ b, selectDataMode data = .ok b) := by
  refine ⟨?_, ?_, ?_, ?_⟩
  · intro h1 h2 h3
    simp [applyNegativeWeightTreatment, h1, h2, h3]
  · intro h1 h2
    simp [selectDataMode, h1, h2]
  · rintro (hm | hm | hm) e he <;> subst hm
    · simp [applyNegativeWeightTreatment] at he
    · simp [applyNegativeWeightTreatment] at he
    · rw [show applyNegativeWeightTreatment "reweight" w = reweight w from rfl] at he
      unfold reweight at he
      dsimp only [] at he
      split at he
      · injection he with h
        exact Or.inl h.symm
      · split at he
        · split at he
          · cases he
          · injection he with h
            exact Or.inr h.symm
        · injection he with h
          exact Or.inl h.symm
  · rintro (hd | hd) <;> subst hd
    · exact ⟨false, by simp [selectDataMode]⟩
    · exact ⟨true, by simp [selectDataMode]⟩

/-- Witness for `c7_bad_enum_values` at the unrecognized values
`mode = data = "gaussian"`. -/
theorem c7_witness :
    applyNegativeWeightTreatment "gaussian" [(1 : ℚ)] =
        .error "Bad value for option negative_weight_treatment: gaussian" ∧
      selectDataMode "gaussian" =
        .error "Unrecogised value for option data: gaussian" :=
  ⟨(c7_bad_enum_values "gaussian" "gaussian" [1]).1
      (by decide) (by decide) (by decide),
    (c7_bad_enum_values "gaussian" "gaussian" [1]).2.1 (by decide) (by decide)⟩

/-! ### Claim C8: deduplication of same-named trees in `write_root` -/

/-- `more_itertools.unique_everseen` specialised to lists of tree names, as
used in `rootIO.write_root` (rootIO.py lines 469-471) to iterate over the
names of the keys of one source file:

```
for tree in unique_everseen(key.ReadObj().GetName() for key in fi.GetListOfKeys()):
```

It yields each distinct element once, in order of first occurrence. -/
def unique_everseen : List String → List String
  | [] => []
  | a :: l => a :: unique_everseen (l.filter (fun b => decide (b ≠ a)))
termination_by l => l.length
decreasing_by
  simp only [List.length_cons]
  exact Nat.lt_succ_of_le (List.length_filter_le _ _)

theorem unique_everseen_mem :
    ∀ (l : List String) (b : String), b ∈ unique_everseen l ↔ b ∈ l := by
  intro l
  induction l using unique_everseen.induct with
  | case1 => simp [unique_everseen]
  | case2 a t ih =>
    intro b
    rw [unique_everseen]
    simp only [List.mem_cons, ih]
    constructor
    · rintro (rfl | hb)
      · exact Or.inl rfl
      · exact Or.inr (List.mem_of_mem_filter hb)
    · rintro (rfl | hb)
      · exact Or.inl rfl
      · by_cases hba : b = a
        · exact Or.inl hba
        · exact Or.inr (List.mem_filter.mpr ⟨hb, by simp [hba]⟩)

theorem unique_everseen_nodup : ∀ l : List String, (unique_everseen l).Nodup := by
  intro l
  induction l using unique_everseen.induct with
  | case1 => simp [unique_everseen]
  | case2 a t ih =>
    rw [unique_everseen]
    refine List.nodup_cons.mpr ⟨?_, ih⟩
    intro hmem
    have := List.mem_of_mem_filter ((unique_everseen_mem _ a).mp hmem)
    have h2 := (List.mem_filter.mp ((unique_everseen_mem _ a).mp hmem)).2
    simp at h2

theorem unique_everseen_drop_dup :
    ∀ (n : ℕ) (l₁ l₂ : List String) (a : String), l₁.length ≤ n → a ∈ l₁ →
      unique_everseen (l₁ ++ a :: l₂) = unique_everseen (l₁ ++ l₂) := by
  intro n
  induction n with
  | zero =>
    intro l₁ l₂ a hlen ha
    rw [List.length_eq_zero.mp (Nat.le_zero.mp hlen)] at ha
    cases ha
  | succ n ih =>
    intro l₁ l₂ a hlen ha
    match l₁ with
    | [] => cases ha
    | b :: t =>
      simp only [List.cons_append]
      rw [unique_everseen, unique_everseen]
      congr 1
      rw [List.filter_append, List.filter_append]
      by_cases hab : a = b
      · subst hab
        simp only [List.filter_cons, decide_not, decide_eq_true_eq]
        rw [if_neg (by simp)]
      · have ha' : a ∈ t := by
          rcases List.mem_cons.mp ha with h | h
          · exact absurd h hab
          · exact h
        simp only [List.filter_cons, decide_not]
        rw [if_pos (by simp [hab])]
        have hmem : a ∈ t.filter (fun c => !decide (c = b)) :=
          List.mem_filter.mpr ⟨ha', by simp [hab]⟩
        have hlen' : (t.filter (fun c => !decide (c = b))).length ≤ n :=
          le_trans (List.length_filter_le _ _)
            (Nat.le_of_succ_le_succ (by simpa using hlen))
        have := ih (t.filter (fun c => !decide (c = b)))
          (l₂.filter (fun c => !decide (c = b))) a hlen' hmem
        simpa using this

/-- C8: within one source file, `write_root` processes each distinct tree
name once: the deduplicated key-name sequence has no duplicates, contains
exactly the names present among the keys, and a later repetition of an
already-seen name is simply dropped (the first occurrence wins). -/
theorem c8_write_root_dedup (l l₁ l₂ : List String) (a : String) :
    (unique_everseen l).Nodup ∧
    (∀ b, b ∈ unique_everseen l ↔ b ∈ l) ∧
    (a ∈ l₁ → unique_everseen (l₁ ++ a :: l₂) = unique_everseen (l₁ ++ l₂)) :=
  ⟨unique_everseen_nodup l, unique_everseen_mem l,
    fun ha => unique_everseen_drop_dup l₁.length l₁ l₂ a (le_refl _) ha⟩

/-- Witness for `c8_write_root_dedup`: among the keys
`["Ttree_A", "Ttree_B", "Ttree_A", "Ttree_C"]` the duplicate `"Ttree_A"` is
dropped. -/
theorem c8_witness :
    unique_everseen ["Ttree_A", "Ttree_B", "Ttree_A", "Ttree_C"] =
      unique_everseen ["Ttree_A", "Ttree_B", "Ttree_C"] :=
  (c8_write_root_dedup [] ["Ttree_A", "Ttree_B"] ["Ttree_C"] "Ttree_A").2.2
    (by decide)

/-! ### Claim C9: `config.read_config` overlay semantics -/

/-- YAML-style configuration values as they occur in `tact/config.py`:
`None`, booleans, numbers, strings, tuples/lists, and nested string-keyed
mappings (insertion-ordered, unique keys — a Python `dict`). -/
inductive CVal where
  | vnone : CVal
  | vbool : Bool → CVal
  | vnum : ℚ → CVal
  | vstr : String → CVal
  | vtup : List CVal → CVal
  | vmap : List (String × CVal) → CVal

/-- The default configuration `config.cfg` (config.py lines 20-33). -/
def cfg : List (String × CVal) :=
  [("seed", .vnone),
   ("channel", .vstr "all"),
   ("plot_dir", .vstr "plots/"),
   ("root_dir", .vstr "root/"),
   ("mva_dir", .vstr "mva/"),
   ("test_fraction", .vnum (1/2)),
   ("equalise_signal", .vbool true),
   ("negative_weight_treatment", .vstr "passthrough"),
   ("preprocessors", .vtup []),
   ("root_out", .vmap [("combine", .vbool true),
                       ("drop_nan", .vbool false),
                       ("data", .vstr "empty"),
                       ("bins", .vnum 20)])]

/-- Python `dict` lookup (`d[k]` / `k in d`) on an insertion-ordered
association list with unique keys. -/
def lookupKey (k : String) : List (String × CVal) → Option CVal
  | [] => none
  | p :: rest => if p.1 = k then some p.2 else lookupKey k rest

/-- Python `dict` assignment `d[k] = v`: overwrite in place if the key
exists, else append (insertion order preserved). -/
def setKey (m : List (String × CVal)) (k : String) (v : CVal) :
    List (String × CVal) :=
  if m.any (fun p => decide (p.1 = k)) then
    m.map (fun p => if p.1 = k then (k, v) else p)
  else m ++ [(k, v)]

/-- Python `base.update(user)`: assign every `user` entry into `base`, in
order.  This is the whole-value, top-level-only merge performed by
`cfg.update(load(f, Loader=Loader))` in `config.read_config` (config.py
lines 36-55). -/
def dictUpdate (base user : List (String × CVal)) : List (String × CVal) :=
  user.foldl (fun acc p => setKey acc p.1 p.2) base

/-- Model of `config.read_config`, applied to the already-parsed user
configuration mapping (the file/stdin I/O and YAML parsing are outside the
model): it updates the module-wide defaults `cfg` with the user mapping. -/
def read_config (user : List (String × CVal)) : List (String × CVal) :=
  dictUpdate cfg user

theorem lookupKey_map_set_self :
    ∀ (m : List (String × CVal)) (k : String) (v : CVal),
      m.any (fun p => decide (p.1 = k)) = true →
      lookupKey k (m.map (fun p => if p.1 = k then (k, v) else p)) = some v := by
  intro m
  induction m with
  | nil => intro k v hany; cases hany
  | cons p t ih =>
    intro k v hany
    by_cases hpk : p.1 = k
    · simp only [List.map_cons, if_pos hpk]
      rw [lookupKey, if_pos rfl]
    · simp only [List.map_cons, if_neg hpk]
      rw [lookupKey, if_neg hpk]
      apply ih
      rcases List.any_eq_true.mp hany with ⟨q, hq, hqk⟩
      rcases List.mem_cons.mp hq with rfl | hq'
      · exact absurd (of_decide_eq_true hqk) hpk
      · exact List.any_eq_true.mpr ⟨q, hq', hqk⟩

theorem lookupKey_append_self :
    ∀ (m : List (String × CVal)) (k : String) (v : CVal),
      m.any (fun p => decide (p.1 = k)) = false →
      lookupKey k (m ++ [(k, v)]) = some v := by
  intro m
  induction m with
  | nil =>
    intro k v _
    rw [List.nil_append, lookupKey, if_pos rfl]
  | cons p t ih =>
    intro k v hany
    rw [List.any_cons] at hany
    rcases Bool.or_eq_false_iff.mp hany with ⟨hpk, ht⟩
    rw [List.cons_append, lookupKey, if_neg (of_decide_eq_false hpk)]
    exact ih k v ht

theorem lookupKey_setKey_self (m : List (String × CVal)) (k : String)
    (v : CVal) :
    lookupKey k (setKey m k v) = some v := by
  unfold setKey
  by_cases hany : m.any (fun p => decide (p.1 = k)) = true
  · rw [if_pos hany]
    exact lookupKey_map_set_self m k v hany
  · rw [if_neg hany]
    exact lookupKey_append_self m k v (Bool.not_eq_true _ ▸ hany)

theorem lookupKey_map_set_ne :
    ∀ (m : List (String × CVal)) (k k' : String) (v : CVal), k ≠ k' →
      lookupKey k (m.map (fun p => if p.1 = k' then (k', v) else p)) =
        lookupKey k m := by
  intro m
  induction m with
  | nil => intro k k' v _; rfl
  | cons p t ih =>
    intro k k' v h
    by_cases hpk : p.1 = k'
    · simp only [List.map_cons, if_pos hpk]
      rw [lookupKey, lookupKey, if_neg (fun hc => h hc.symm),
        if_neg (fun hc => h ((hpk.symm.trans hc).symm))]
      exact ih k k' v h
    · simp only [List.map_cons, if_neg hpk]
      rw [lookupKey, lookupKey]
      by_cases hp : p.1 = k
      · rw [if_pos hp, if_pos hp]
      · rw [if_neg hp, if_neg hp]
        exact ih k k' v h

theorem lookupKey_append_ne :
    ∀ (m : List (String × CVal)) (k k' : String) (v : CVal), k ≠ k' →
      lookupKey k (m ++ [(k', v)]) = lookupKey k m := by
  intro m
  induction m with
  | nil =>
    intro k k' v h
    have hkk : ¬ (k' = k) := fun hc => h hc.symm
    simp [lookupKey, hkk]
  | cons p t ih =>
    intro k k' v h
    rw [List.cons_append, lookupKey, lookupKey]
    by_cases hp : p.1 = k
    · rw [if_pos hp, if_pos hp]
    · rw [if_neg hp, if_neg hp]
      exact ih k k' v h

theorem lookupKey_setKey_ne (m : List (String × CVal)) (k k' : String)
    (v : CVal) (h : k ≠ k') :
    lookupKey k (setKey m k' v) = lookupKey k m := by
  unfold setKey
  split
  · exact lookupKey_map_set_ne m k k' v h
  · exact lookupKey_append_ne m k k' v h

theorem lookupKey_dictUpdate_none :
    ∀ (user base : List (String × CVal)) (k : String),
      (∀ p ∈ user, p.1 ≠ k) →
      lookupKey k (dictUpdate base user) = lookupKey k base := by
  intro user
  induction user with
  | nil => intro base k _; rfl
  | cons p t ih =>
    intro base k h
    show lookupKey k (dictUpdate (setKey base p.1 p.2) t) = lookupKey k base
    rw [ih (setKey base p.1 p.2) k (fun q hq => h q (List.mem_cons_of_mem _ hq))]
    exact lookupKey_setKey_ne base k p.1 p.2
      (fun hc => h p (List.mem_cons_self _ _) hc.symm)

theorem lookupKey_dictUpdate_some :
    ∀ (user base : List (String × CVal)) (k : String) (v : CVal),
      (user.map Prod.fst).Nodup → lookupKey k user = some v →
      lookupKey k (dictUpdate base user) = some v := by
  intro user
  induction user with
  | nil => intro base k v _ h; cases h
  | cons p t ih =>
    intro base k v hnd h
    rw [lookupKey] at h
    by_cases hpk : p.1 = k
    · rw [if_pos hpk] at h
      have hv : p.2 = v := Option.some_inj.mp h
      rw [List.map_cons] at hnd
      obtain ⟨hhead, htail⟩ := List.nodup_cons.mp hnd
      have hnk : ∀ q ∈ t, q.1 ≠ k := by
        intro q hq hc
        exact hhead (List.mem_map.mpr ⟨q, hq, hc.trans hpk.symm⟩)
      show lookupKey k (dictUpdate (setKey base p.1 p.2) t) = some v
      rw [lookupKey_dictUpdate_none t (setKey base p.1 p.2) k hnk, hpk, hv]
      exact lookupKey_setKey_self base k v
    · rw [if_neg hpk] at h
      rw [List.map_cons] at hnd
      exact ih (setKey base p.1 p.2) k v (List.nodup_cons.mp hnd).2 h

/-- C9: `read_config` performs a *top-level* overlay — if the user
configuration contains a `"root_out"` mapping, the entire default
`"root_out"` sub-map is replaced by the user's mapping verbatim (so any
sub-option absent from the user's `"root_out"` is absent from the merged
configuration rather than keeping its default), while top-level keys absent
from the user configuration keep their default values. -/
theorem c9_read_config_shallow_merge (user m : List (String × CVal))
    (hnd : (user.map Prod.fst).Nodup)
    (hro : lookupKey "root_out" user = some (.vmap m)) :
    lookupKey "root_out" (read_config user) = some (.vmap m) ∧
    (∀ k, (∀ p ∈ user, p.1 ≠ k) →
      lookupKey k (read_config user) = lookupKey k cfg) :=
  ⟨lookupKey_dictUpdate_some user cfg "root_out" _ hnd hro,
    fun k hk => lookupKey_dictUpdate_none user cfg k hk⟩

/-- Witness for `c9_read_config_shallow_merge`: a user configuration whose
`root_out` sets only `combine`.  After merging, `root_out` is exactly the
user's one-entry map — in particular its `bins` entry is gone even though
the default `root_out` carried `bins = 20` — while the untouched top-level
`channel` keeps its default. -/
theorem c9_witness :
    lookupKey "root_out"
        (read_config [("root_out", .vmap [("combine", .vbool false)])]) =
      some (.vmap [("combine", .vbool false)]) ∧
    lookupKey "channel"
        (read_config [("root_out", .vmap [("combine", .vbool false)])]) =
      lookupKey "channel" cfg ∧
    lookupKey "bins" [("combine", CVal.vbool false)] = none ∧
    lookupKey "bins" [("combine", CVal.vbool true),
      ("drop_nan", CVal.vbool false), ("data", CVal.vstr "empty"),
      ("bins", CVal.vnum 20)] = some (CVal.vnum 20) :=
  ⟨(c9_read_config_shallow_merge [("root_out", .vmap [("combine", .vbool false)])]
      [("combine", .vbool false)] (by simp) rfl).1,
    (c9_read_config_shallow_merge [("root_out", .vmap [("combine", .vbool false)])]
      [("combine", .vbool false)] (by simp) rfl).2 "channel"
      (by
        intro p hp
        rcases List.mem_singleton.mp hp with rfl
        decide),
    rfl, rfl⟩

/-! ### Claim C10: `read_trees` needs a nonempty signal and background side -/

/-- Accumulated per-process tables: (process, EvtWeight column, MVAWeight
column). -/
abbrev Acc := List (String × List ℚ × List ℚ)

/-- The per-file loop of `rootIO.read_trees` (rootIO.py lines 241-276): for
each input file, skip it if its process is not whitelisted or its tree is
empty, otherwise apply the configured negative-weight treatment and append
the table to the signal list (`process in signals`) or background list. -/
def readLoop (signals backgrounds : List String)
    (negative_weight_treatment : String) :
    List (String × List ℚ) → Acc × Acc → Except String (Acc × Acc)
  | [], acc => .ok acc
  | f :: rest, acc =>
    if f.1 ∈ signals ++ backgrounds then
      if f.2 = [] then
        readLoop signals backgrounds negative_weight_treatment rest acc
      else
        match applyNegativeWeightTreatment negative_weight_treatment f.2 with
        | .error e => .error e
        | .ok colw =>
          if f.1 ∈ signals then
            readLoop signals backgrounds negative_weight_treatment rest
              (acc.1 ++ [(f.1, f.2, colw)], acc.2)
          else
            readLoop signals backgrounds negative_weight_treatment rest
              (acc.1, acc.2 ++ [(f.1, f.2, colw)])
    else readLoop signals backgrounds negative_weight_treatment rest acc

/-- Model of `rootIO.read_trees` (rootIO.py lines 122-290).  Each input file
is represented by its (process name, event-weight column): the process name
stands for `histofile_$PROCESS.root` and the column for the `EvtWeight`
branch of its `Ttree_$PROCESS`; feature columns and the selection string are
not modelled, since the claims checked here depend only on the weights.  An
empty column stands for an empty or unreadable tree (skipped, like
`df.empty`).  `pd.concat` of an empty list raises
`ValueError("No objects to concatenate")`; the signal side is concatenated
first, as in the source.  Output rows are
`(Process, EvtWeight, MVAWeight, Signal)`. -/
def read_trees (files : List (String × List ℚ))
    (signals backgrounds : List String)
    (negative_weight_treatment : String := "passthrough")
    (equalise_signal : Bool := true) :
    Except String (List (String × ℚ × ℚ × ℕ)) :=
  match readLoop signals backgrounds negative_weight_treatment files ([], []) with
  | .error e => .error e
  | .ok (sigs, bkgs) =>
    if sigs = [] then .error "ValueError: No objects to concatenate"
    else if bkgs = [] then .error "ValueError: No objects to concatenate"
    else
      let sigRows := (sigs.map (fun t => (t.2.1.zip t.2.2).map
        (fun p => (t.1, p.1, p.2)))).flatten
      let bkgRows := (bkgs.map (fun t => (t.2.1.zip t.2.2).map
        (fun p => (t.1, p.1, p.2)))).flatten
      match (if equalise_signal then
          balance_weights (sigRows.map (fun r => r.2.2))
            (bkgRows.map (fun r => r.2.2))
        else .ok (sigRows.map (fun r => r.2.2), bkgRows.map (fun r => r.2.2))) with
      | .error e => .error e
      | .ok (sw, bw) =>
        .ok ((sigRows.zip sw).map (fun p => (p.1.1, p.1.2.1, p.2, 1)) ++
          (bkgRows.zip bw).map (fun p => (p.1.1, p.1.2.1, p.2, 0)))

theorem readLoop_no_sig :
    ∀ (files : List (String × List ℚ)) (signals backgrounds : List String)
      (nwt : String) (acc : Acc × Acc),
      (∀ f ∈ files, f.1 ∈ signals → f.2 = []) →
      (∃ e, readLoop signals backgrounds nwt files acc = .error e) ∨
      (∃ b, readLoop signals backgrounds nwt files acc = .ok (acc.1, b)) := by
  intro files
  induction files with
  | nil =>
    intro signals backgrounds nwt acc _
    right
    exact ⟨acc.2, by rw [readLoop]⟩
  | cons f rest ih =>
    intro signals backgrounds nwt acc h
    rw [readLoop]
    by_cases hw : f.1 ∈ signals ++ backgrounds
    · rw [if_pos hw]
      by_cases he : f.2 = []
      · rw [if_pos he]
        exact ih signals backgrounds nwt acc
          (fun g hg => h g (List.mem_cons_of_mem _ hg))
      · rw [if_neg he]
        have hns : f.1 ∉ signals :=
          fun hs => he (h f (List.mem_cons_self _ _) hs)
        cases happ : applyNegativeWeightTreatment nwt f.2 with
        | error e =>
          left
          exact ⟨e, by simp only [happ]⟩
        | ok colw =>
          simp only [happ, if_neg hns]
          exact ih signals backgrounds nwt (acc.1, acc.2 ++ [(f.1, f.2, colw)])
            (fun g hg => h g (List.mem_cons_of_mem _ hg))
    · rw [if_neg hw]
      exact ih signals backgrounds nwt acc
        (fun g hg => h g (List.mem_cons_of_mem _ hg))

theorem readLoop_no_bkg :
    ∀ (files : List (String × List ℚ)) (signals backgrounds : List String)
      (nwt : String) (acc : Acc × Acc),
      (∀ f ∈ files, f.1 ∈ backgrounds → f.1 ∉ signals → f.2 = []) →
      (∃ e, readLoop signals backgrounds nwt files acc = .error e) ∨
      (∃ s, readLoop signals backgrounds nwt files acc = .ok (s, acc.2)) := by
  intro files
  induction files with
  | nil =>
    intro signals backgrounds nwt acc _
    right
    exact ⟨acc.1, by rw [readLoop]⟩
  | cons f rest ih =>
    intro signals backgrounds nwt acc h
    rw [readLoop]
    by_cases hw : f.1 ∈ signals ++ backgrounds
    · rw [if_pos hw]
      by_cases he : f.2 = []
      · rw [if_pos he]
        exact ih signals backgrounds nwt acc
          (fun g hg => h g (List.mem_cons_of_mem _ hg))
      · rw [if_neg he]
        cases happ : applyNegativeWeightTreatment nwt f.2 with
        | error e =>
          left
          exact ⟨e, by simp only [happ]⟩
        | ok colw =>
          by_cases hsg : f.1 ∈ signals
          · simp only [happ, if_pos hsg]
            exact ih signals backgrounds nwt
              (acc.1 ++ [(f.1, f.2, colw)], acc.2)
              (fun g hg => h g (List.mem_cons_of_mem _ hg))
          · have hbk : f.1 ∈ backgrounds := by
              rcases List.mem_append.mp hw with hc | hc
              · exact absurd hc hsg
              · exact hc
            exact absurd (h f (List.mem_cons_self _ _) hbk hsg) he
    · rw [if_neg hw]
      exact ih signals backgrounds nwt acc
        (fun g hg => h g (List.mem_cons_of_mem _ hg))

theorem readLoop_ok :
    ∀ (files : List (String × List ℚ)) (signals backgrounds : List String)
      (nwt : String) (acc : Acc × Acc) (s b : Acc),
      readLoop signals backgrounds nwt files acc = .ok (s, b) →
      (s = acc.1 ∨ ∃ f ∈ files, f.1 ∈ signals ∧ f.2 ≠ []) ∧
      (b = acc.2 ∨ ∃ f ∈ files, f.1 ∈ backgrounds ∧ f.1 ∉ signals ∧ f.2 ≠ []) := by
  intro files
  induction files with
  | nil =>
    intro signals backgrounds nwt acc s b h
    rw [readLoop] at h
    injection h with h2
    exact ⟨Or.inl (congrArg Prod.fst h2).symm,
      Or.inl (congrArg Prod.snd h2).symm⟩
  | cons f rest ih =>
    intro signals backgrounds nwt acc s b h
    rw [readLoop] at h
    by_cases hw : f.1 ∈ signals ++ backgrounds
    · rw [if_pos hw] at h
      by_cases he : f.2 = []
      · rw [if_pos he] at h
        obtain ⟨h1, h2⟩ := ih signals backgrounds nwt acc s b h
        exact ⟨h1.imp_right (fun ⟨g, hg, hp⟩ =>
            ⟨g, List.mem_cons_of_mem _ hg, hp⟩),
          h2.imp_right (fun ⟨g, hg, hp⟩ =>
            ⟨g, List.mem_cons_of_mem _ hg, hp⟩)⟩
      · rw [if_neg he] at h
        cases happ : applyNegativeWeightTreatment nwt f.2 with
        | error e =>
          simp only [happ] at h
          exact Except.noConfusion h
        | ok colw =>
          simp only [happ] at h
          by_cases hsg : f.1 ∈ signals
          · rw [if_pos hsg] at h
            obtain ⟨-, h2⟩ := ih signals backgrounds nwt
              (acc.1 ++ [(f.1, f.2, colw)], acc.2) s b h
            exact ⟨Or.inr ⟨f, List.mem_cons_self _ _, hsg, he⟩,
              h2.imp_right (fun ⟨g, hg, hp⟩ =>
                ⟨g, List.mem_cons_of_mem _ hg, hp⟩)⟩
          · rw [if_neg hsg] at h
            have hbk : f.1 ∈ backgrounds := by
              rcases List.mem_append.mp hw with hc | hc
              · exact absurd hc hsg
              · exact hc
            obtain ⟨h1, -⟩ := ih signals backgrounds nwt
              (acc.1, acc.2 ++ [(f.1, f.2, colw)]) s b h
            exact ⟨h1.imp_right (fun ⟨g, hg, hp⟩ =>
                ⟨g, List.mem_cons_of_mem _ hg, hp⟩),
              Or.inr ⟨f, List.mem_cons_self _ _, hbk, hsg, he⟩⟩
    · rw [if_neg hw] at h
      obtain ⟨h1, h2⟩ := ih signals backgrounds nwt acc s b h
      exact ⟨h1.imp_right (fun ⟨g, hg, hp⟩ =>
          ⟨g, List.mem_cons_of_mem _ hg, hp⟩),
        h2.imp_right (fun ⟨g, hg, hp⟩ =>
          ⟨g, List.mem_cons_of_mem _ hg, hp⟩)⟩

/-- C10: if every signal-process file is empty or skipped, `read_trees`
fails with an exception rather than returning a table (either the
concatenation of the empty signal list — `pd.concat([])` — or an earlier
treatment error); likewise when every background-process file is empty or
skipped; and returning normally requires at least one nonempty contributing
signal table and at least one nonempty contributing background table. -/
theorem c10_read_trees_nonempty (files : List (String × List ℚ))
    (signals backgrounds : List String) (nwt : String) (eq : Bool) :
    ((∀ f ∈ files, f.1 ∈ signals → f.2 = []) →
      ∃ e, read_trees files signals backgrounds nwt eq = .error e) ∧
    ((∀ f ∈ files, f.1 ∈ backgrounds → f.1 ∉ signals → f.2 = []) →
      ∃ e, read_trees files signals backgrounds nwt eq = .error e) ∧
    (∀ out, read_trees files signals backgrounds nwt eq = .ok out →
      (∃ f ∈ files, f.1 ∈ signals ∧ f.2 ≠ []) ∧
      (∃ f ∈ files, f.1 ∈ backgrounds ∧ f.1 ∉ signals ∧ f.2 ≠ [])) := by
  refine ⟨?_, ?_, ?_⟩
  · intro h
    rcases readLoop_no_sig files signals backgrounds nwt ([], []) h with
      ⟨e, herr⟩ | ⟨b, hok⟩
    · exact ⟨e, by unfold read_trees; rw [herr]⟩
    · refine ⟨"ValueError: No objects to concatenate", ?_⟩
      unfold read_trees
      rw [hok]
      rfl
  · intro h
    rcases readLoop_no_bkg files signals backgrounds nwt ([], []) h with
      ⟨e, herr⟩ | ⟨s, hok⟩
    · exact ⟨e, by unfold read_trees; rw [herr]⟩
    · refine ⟨"ValueError: No objects to concatenate", ?_⟩
      unfold read_trees
      rw [hok]
      by_cases hs : s = [] <;> simp [hs]
  · intro out hout
    unfold read_trees at hout
    cases hrl : readLoop signals backgrounds nwt files ([], []) with
    | error e =>
      rw [hrl] at hout
      exact Except.noConfusion hout
    | ok sb =>
      obtain ⟨s, b⟩ := sb
      simp only [hrl] at hout
      by_cases hs : s = []
      · rw [if_pos hs] at hout
        exact Except.noConfusion hout
      · rw [if_neg hs] at hout
        by_cases hb : b = []
        · rw [if_pos hb] at hout
          exact Except.noConfusion hout
        · obtain ⟨h1, h2⟩ := readLoop_ok files signals backgrounds nwt
            ([], []) s b hrl
          exact ⟨h1.resolve_left hs, h2.resolve_left hb⟩

/-- Witness for `c10_read_trees_nonempty`: one signal process with no
events and one nonempty background process — the signal-side concatenation
fails. -/
theorem c10_witness :
    ∃ e, read_trees [("SigA", []), ("BkgA", [1])] ["SigA"] ["BkgA"]
      "passthrough" true = .error e :=
  (c10_read_trees_nonempty [("SigA", []), ("BkgA", [(1 : ℚ)])] ["SigA"]
    ["BkgA"] "passthrough" true).1
    (by
      intro f hf hsig
      rcases List.mem_cons.mp hf with rfl | hf'
      · rfl
      · rcases List.mem_singleton.mp hf' with rfl
        exact absurd (List.mem_singleton.mp hsig) (by decide))

end Tact
